import Mathlib

set_option maxRecDepth 8000

/-!
Verification of the DSR-AI-CULLING image-triage core.

The repository's core lives in `final_core_stress_test.py`, which concatenates
three near-duplicate variants of the gallery application (the original file
names appear in section comments at lines 78, 1415 and 2519).  Each Python
class or method cited below is embedded as an executable Lean definition;
line numbers in doc comments refer to `final_core_stress_test.py`.

Python record and result dictionaries are modelled as association lists of
`String × Value` with Python `dict` semantics (`get`, `update`, item
assignment preserving key order).
-/

namespace DSR

/-- Python values that appear in the record/result dictionaries of the
gallery code: strings, integers, booleans, lists of strings (`face_ids`,
`ai_tags`) and `None`. -/
inductive Value where
  | str (s : String)
  | int (n : Int)
  | bool (b : Bool)
  | strList (l : List String)
  | none
deriving DecidableEq, Repr

/-- A Python `dict` with string keys, kept in insertion order. -/
abbrev Dict := List (String × Value)

/-- `d.get(k)` when the caller distinguishes a missing key. -/
def dictGet (d : Dict) (k : String) : Option Value :=
  (d.find? (fun p => p.1 == k)).map (fun p => p.2)

/-- `d.get(k, dflt)`. -/
def dictGetD (d : Dict) (k : String) (v : Value) : Value :=
  (dictGet d k).getD v

/-- `k in d`. -/
def hasKey (d : Dict) (k : String) : Bool :=
  d.any (fun p => p.1 == k)

/-- `d[k] = v`: overwrite in place when the key exists, otherwise append. -/
def dictSet : Dict → String → Value → Dict
  | [], k, v => [(k, v)]
  | p :: tl, k, v => if p.1 == k then (k, v) :: tl else p :: dictSet tl k v

/-- `d.update(res)`: item-assign every pair of `res` in order. -/
def dictUpdate (d : Dict) (res : Dict) : Dict :=
  res.foldl (fun acc p => dictSet acc p.1 p.2) d

/-- Python truthiness of a `Value`. -/
def truthy : Value → Bool
  | .str s => !s.isEmpty
  | .int n => n != 0
  | .bool b => b
  | .strList l => !l.isEmpty
  | .none => false

theorem dictGet_dictSet_of_ne (d : Dict) {k' k : String} (h : (k' == k) = false)
    (v : Value) : dictGet (dictSet d k' v) k = dictGet d k := by
  induction d with
  | nil => simp [dictGet, dictSet, List.find?, h]
  | cons a tl ih =>
    by_cases ha : (a.1 == k') = true
    · have ha' : (a.1 == k) = false := by
        have heq : a.1 = k' := by simpa using ha
        subst heq
        exact h
      simp [dictGet, dictSet, List.find?, ha, ha', h]
    · by_cases hak : (a.1 == k) = true
      · simp [dictGet, dictSet, List.find?, ha, hak]
      · simp [dictGet, dictSet, List.find?, ha, hak] at ih ⊢
        exact ih

theorem dictGet_dictUpdate_of_not_hasKey (d res : Dict) (k : String)
    (h : hasKey res k = false) : dictGet (dictUpdate d res) k = dictGet d k := by
  induction res generalizing d with
  | nil => rfl
  | cons a tl ih =>
    have h1 : (a.1 == k) = false := by
      by_contra hc
      simp only [Bool.not_eq_false] at hc
      simp [hasKey, List.any, hc] at h
    have h2 : hasKey tl k = false := by
      simp [hasKey, List.any] at h ⊢
      intro x hx
      exact h.2 x hx
    show dictGet (dictUpdate (dictSet d a.1 a.2) tl) k = dictGet d k
    rw [ih (dictSet d a.1 a.2) h2, dictGet_dictSet_of_ne d h1]

theorem dictGet_dictSet_self (d : Dict) (k : String) (v : Value) :
    dictGet (dictSet d k v) k = some v := by
  induction d with
  | nil => simp [dictGet, dictSet, List.find?]
  | cons a tl ih =>
    by_cases ha : (a.1 == k) = true
    · simp [dictGet, dictSet, List.find?, ha]
    · simp [dictGet, dictSet, List.find?, ha] at ih ⊢
      exact ih

/-! ## Decision policy applied to delivered analysis results

`GalleryView.handle_ai_result`, lines 1260-1267 (first variant) and
lines 2784-2791 (third variant) of `final_core_stress_test.py`. -/

/-- `d['path'] == res.get('path')` — the record always carries a `'path'`
key (records are built by `on_batch_found`); a missing result path is
Python `None` and compares unequal to the stored string. -/
def pyEqPath (d res : Dict) : Bool :=
  match dictGet d "path" with
  | some v => v == dictGetD res "path" Value.none
  | Option.none => false

/-- `d.get('score', 0) > 45` (line 1267).  Scores in the repository are
integers (records start at `'score': 0`); a non-integer would raise in
Python and never compares greater. -/
def scoreGt45 (d : Dict) : Bool :=
  match dictGetD d "score" (Value.int 0) with
  | .int n => decide (45 < n)
  | _ => false

/-- `result.get('score', 0) >= 80` (line 2789). -/
def scoreGe80 (res : Dict) : Bool :=
  match dictGetD res "score" (Value.int 0) with
  | .int n => decide (80 ≤ n)
  | _ => false

/-- Body of the line-1262 loop applied to one record: on a path match,
`d.update(res)`, then `if d.get('score', 0) > 45 and not
d.get('is_manual'): d['status'] = 'keep'`. -/
def applyVerdictV1 (res d : Dict) : Dict :=
  if pyEqPath d res then
    let m := dictUpdate d res
    if scoreGt45 m && !truthy (dictGetD m "is_manual" Value.none) then
      dictSet m "status" (Value.str "keep")
    else m
  else d

/-- `GalleryView.handle_ai_result` at line 1260: the loop visits every
record (no `break`) and rewrites each matching one in place. -/
def handleAiResultV1 (image_data : List Dict) (res : Dict) : List Dict :=
  image_data.map (applyVerdictV1 res)

/-- `GalleryView.handle_ai_result` at line 2784: update only the first
record whose path matches (`break` after the match); for a non-manual
record set `status` to `'keep'` when `result.get('score',0) >= 80`, else
to `'reject'`. -/
def handleAiResultV3 : List Dict → Dict → List Dict
  | [], _ => []
  | d :: rest, res =>
    if pyEqPath d res then
      (let m := dictUpdate d res
       if !truthy (dictGetD m "is_manual" Value.none) then
         dictSet m "status" (Value.str (if scoreGe80 res then "keep" else "reject"))
       else m) :: rest
    else d :: handleAiResultV3 rest res

theorem handleAiResultV1_get? (image_data : List Dict) (res : Dict) (i : ℕ) :
    (handleAiResultV1 image_data res).get? i =
      (image_data.get? i).map (applyVerdictV1 res) := by
  simp [handleAiResultV1]

/-- The per-record status of `applyVerdictV1` on a non-manual match whose
result carries no `'status'` key. -/
theorem applyVerdictV1_status (d res : Dict)
    (hmatch : pyEqPath d res = true)
    (hres : hasKey res "status" = false)
    (hman : truthy (dictGetD (dictUpdate d res) "is_manual" Value.none) = false) :
    dictGet (applyVerdictV1 res d) "status" =
      (if scoreGt45 (dictUpdate d res) then some (Value.str "keep")
       else dictGet d "status") := by
  unfold applyVerdictV1
  rw [if_pos hmatch]
  by_cases hs : scoreGt45 (dictUpdate d res) = true
  · simp only [hs, hman, Bool.not_false, Bool.and_true, if_true]
    exact dictGet_dictSet_self _ _ _
  · simp only [Bool.not_eq_true] at hs
    simp only [hs, Bool.false_and, Bool.false_eq_true, if_false]
    exact dictGet_dictUpdate_of_not_hasKey d res "status" hres

/-- A pending, non-manual record as built by `on_batch_found` (line 1121). -/
def c1Rec : Dict :=
  [("path", Value.str "a.jpg"), ("status", Value.str "pending"),
   ("score", Value.int 0), ("is_manual", Value.bool false)]

/-- An analysis result with the boundary score 45. -/
def c1Res : Dict := [("path", Value.str "a.jpg"), ("score", Value.int 45)]

/-- C1, counterexample: a delivered result with score exactly 45 on a
non-manual pending record.  The claim (`score >= 45 ⇒ status = keep`)
demands `keep`, but line 1267 tests `d.get('score', 0) > 45` strictly, so
the record's status remains `'pending'`. -/
theorem C1_counterexample :
    handleAiResultV1 [c1Rec] c1Res =
      [[("path", Value.str "a.jpg"), ("status", Value.str "pending"),
        ("score", Value.int 45), ("is_manual", Value.bool false)]] ∧
    dictGet ((handleAiResultV1 [c1Rec] c1Res).headI) "status" ≠
      some (Value.str "keep") := by decide

/-- C1, amended: for a delivered result matching a non-manual record,
the line-1260 handler sets `status = 'keep'` exactly when the merged
score is strictly greater than 45 and otherwise leaves `status`
unchanged (engine results carry no `'status'` key); the line-2784
handler instead sets `status` to `'keep'` when the result score is at
least 80 and to `'reject'` otherwise. -/
theorem C1_amended_decision_policy :
    (∀ (image_data : List Dict) (res d : Dict) (i : ℕ),
        image_data.get? i = some d →
        pyEqPath d res = true →
        hasKey res "status" = false →
        truthy (dictGetD (dictUpdate d res) "is_manual" Value.none) = false →
        ∃ d', (handleAiResultV1 image_data res).get? i = some d' ∧
          dictGet d' "status" =
            (if scoreGt45 (dictUpdate d res) then some (Value.str "keep")
             else dictGet d "status")) ∧
    (∀ (rest : List Dict) (res d : Dict),
        pyEqPath d res = true →
        truthy (dictGetD (dictUpdate d res) "is_manual" Value.none) = false →
        ∃ d', handleAiResultV3 (d :: rest) res = d' :: rest ∧
          dictGet d' "status" =
            some (Value.str (if scoreGe80 res then "keep" else "reject"))) := by
  constructor
  · intro image_data res d i hi hmatch hres hman
    refine ⟨applyVerdictV1 res d, ?_, applyVerdictV1_status d res hmatch hres hman⟩
    rw [handleAiResultV1_get?, hi]
    rfl
  · intro rest res d hmatch hman
    have hstep : handleAiResultV3 (d :: rest) res =
        dictSet (dictUpdate d res) "status"
          (Value.str (if scoreGe80 res then "keep" else "reject")) :: rest := by
      unfold handleAiResultV3
      rw [if_pos hmatch]
      simp only [hman, Bool.not_false, if_true]
    exact ⟨_, hstep, dictGet_dictSet_self _ _ _⟩

/-- Record/result pair for the C1 witness: score 46 crosses the strict
threshold. -/
def c1RecW : Dict :=
  [("path", Value.str "b.jpg"), ("status", Value.str "pending"),
   ("score", Value.int 0), ("is_manual", Value.bool false)]

def c1ResW : Dict := [("path", Value.str "b.jpg"), ("score", Value.int 46)]

theorem C1_amended_decision_policy_witness :
    pyEqPath c1RecW c1ResW = true ∧
    (∃ d', (handleAiResultV1 [c1RecW] c1ResW).get? 0 = some d' ∧
      dictGet d' "status" =
        (if scoreGt45 (dictUpdate c1RecW c1ResW) then some (Value.str "keep")
         else dictGet c1RecW "status")) :=
  ⟨by decide,
   C1_amended_decision_policy.1 [c1RecW] c1ResW c1RecW 0 (by decide) (by decide)
     (by decide) (by decide)⟩

/-- `applyVerdictV1` on a manual record (`is_manual` truthy) merges the
result keys but never enters the `status = 'keep'` branch. -/
theorem applyVerdictV1_of_manual (d res : Dict)
    (hman : truthy (dictGetD d "is_manual" Value.none) = true)
    (hm : hasKey res "is_manual" = false) :
    applyVerdictV1 res d = (if pyEqPath d res then dictUpdate d res else d) := by
  unfold applyVerdictV1
  by_cases hp : pyEqPath d res = true
  · rw [if_pos hp, if_pos hp]
    have hpre : dictGetD (dictUpdate d res) "is_manual" Value.none =
        dictGetD d "is_manual" Value.none := by
      unfold dictGetD
      rw [dictGet_dictUpdate_of_not_hasKey d res _ hm]
    simp only [hpre, hman, Bool.not_true, Bool.and_false, Bool.false_eq_true,
      if_false]
  · simp only [Bool.not_eq_true] at hp
    rw [if_neg (by simp [hp]), if_neg (by simp [hp])]

/-- C2: a record with truthy `is_manual` keeps its `status`, `rating` and
`color` when a decision-engine result is applied to it, in both the
line-1260 handler (every matching record) and the line-2784 handler (the
first matching record); engine results carry none of the keys `status`,
`rating`, `color`, `is_manual`. -/
theorem C2_manual_records_untouched :
    (∀ (image_data : List Dict) (res d : Dict) (i : ℕ),
        image_data.get? i = some d →
        truthy (dictGetD d "is_manual" Value.none) = true →
        hasKey res "status" = false → hasKey res "rating" = false →
        hasKey res "color" = false → hasKey res "is_manual" = false →
        ∃ d', (handleAiResultV1 image_data res).get? i = some d' ∧
          dictGet d' "status" = dictGet d "status" ∧
          dictGet d' "rating" = dictGet d "rating" ∧
          dictGet d' "color" = dictGet d "color") ∧
    (∀ (rest : List Dict) (res d : Dict),
        pyEqPath d res = true →
        truthy (dictGetD d "is_manual" Value.none) = true →
        hasKey res "status" = false → hasKey res "rating" = false →
        hasKey res "color" = false → hasKey res "is_manual" = false →
        handleAiResultV3 (d :: rest) res = dictUpdate d res :: rest ∧
          dictGet (dictUpdate d res) "status" = dictGet d "status" ∧
          dictGet (dictUpdate d res) "rating" = dictGet d "rating" ∧
          dictGet (dictUpdate d res) "color" = dictGet d "color") := by
  constructor
  · intro image_data res d i hi hman hs hr hc hm
    refine ⟨applyVerdictV1 res d, ?_, ?_⟩
    · rw [handleAiResultV1_get?, hi]
      rfl
    · rw [applyVerdictV1_of_manual d res hman hm]
      by_cases hp : pyEqPath d res = true
      · rw [if_pos hp]
        exact ⟨dictGet_dictUpdate_of_not_hasKey d res _ hs,
               dictGet_dictUpdate_of_not_hasKey d res _ hr,
               dictGet_dictUpdate_of_not_hasKey d res _ hc⟩
      · simp only [Bool.not_eq_true] at hp
        rw [if_neg (by simp [hp])]
        exact ⟨rfl, rfl, rfl⟩
  · intro rest res d hp hman hs hr hc hm
    have hpre : dictGetD (dictUpdate d res) "is_manual" Value.none =
        dictGetD d "is_manual" Value.none := by
      unfold dictGetD
      rw [dictGet_dictUpdate_of_not_hasKey d res _ hm]
    refine ⟨?_, dictGet_dictUpdate_of_not_hasKey d res _ hs,
            dictGet_dictUpdate_of_not_hasKey d res _ hr,
            dictGet_dictUpdate_of_not_hasKey d res _ hc⟩
    unfold handleAiResultV3
    rw [if_pos hp]
    simp only [hpre, hman, Bool.not_true, Bool.false_eq_true, if_false]

/-- A curator-locked record: manual `keep`, five stars, a color label. -/
def c2Rec : Dict :=
  [("path", Value.str "m.jpg"), ("status", Value.str "keep"),
   ("rating", Value.int 5), ("color", Value.str "gold"),
   ("score", Value.int 0), ("is_manual", Value.bool true)]

/-- A high-scoring result for the locked record. -/
def c2Res : Dict := [("path", Value.str "m.jpg"), ("score", Value.int 99)]

theorem C2_manual_records_untouched_witness :
    truthy (dictGetD c2Rec "is_manual" Value.none) = true ∧
    (∃ d', (handleAiResultV1 [c2Rec] c2Res).get? 0 = some d' ∧
      dictGet d' "status" = dictGet c2Rec "status" ∧
      dictGet d' "rating" = dictGet c2Rec "rating" ∧
      dictGet d' "color" = dictGet c2Rec "color") :=
  ⟨by decide,
   C2_manual_records_untouched.1 [c2Rec] c2Res c2Rec 0 (by decide) (by decide)
     (by decide) (by decide) (by decide) (by decide)⟩

/-! ## ImageCache

Lines 141-175 (first variant) and 2586-2616 (third variant) implement the
same LRU store over an insertion-ordered Python dict: `get` pops and
re-inserts a hit (promoting it to most-recent), `insert` pops an existing
key, else evicts `next(iter(cache))` — the oldest entry — when at
capacity, then appends.  Lines 1443-1458 (second variant) differ: `get`
is a bare `dict.get` and `insert` unconditionally pops the oldest entry
when at capacity. -/

structure Cache where
  cache : List (String × Value)
  max_items : ℕ
deriving DecidableEq, Repr

/-- `ImageCache()` — `self.cache = {}`, `self.max_items = 1500`
(lines 2589-2592). -/
def emptyCache : Cache := { cache := [], max_items := 1500 }

/-- `ImageCache.get` (lines 2594-2600): on a hit, pop the entry and
re-insert it at the most-recent end. -/
def cacheGet (c : Cache) (k : String) : Option Value × Cache :=
  match c.cache.find? (fun p => p.1 == k) with
  | some p =>
      (some p.2,
       { c with cache := (c.cache.eraseP (fun q => q.1 == k)) ++ [(k, p.2)] })
  | Option.none => (Option.none, c)

/-- `ImageCache.insert` (lines 2602-2610): pop an existing key, else pop
the oldest entry when at capacity, then append. -/
def cacheInsert (c : Cache) (k : String) (v : Value) : Cache :=
  if hasKey c.cache k then
    { c with cache := (c.cache.eraseP (fun q => q.1 == k)) ++ [(k, v)] }
  else if c.max_items ≤ c.cache.length then
    { c with cache := c.cache.tail ++ [(k, v)] }
  else
    { c with cache := c.cache ++ [(k, v)] }

inductive CacheOp where
  | get (k : String)
  | ins (k : String) (v : Value)
deriving DecidableEq, Repr

def cacheStep (c : Cache) : CacheOp → Cache
  | .get k => (cacheGet c k).2
  | .ins k v => cacheInsert c k v

def cacheRun (c : Cache) (ops : List CacheOp) : Cache := ops.foldl cacheStep c

theorem cacheGet_length (c : Cache) (k : String) :
    ((cacheGet c k).2).cache.length = c.cache.length := by
  unfold cacheGet
  cases h : c.cache.find? (fun p => p.1 == k) with
  | none => rfl
  | some p =>
    simp only
    rw [List.length_append]
    have hmem := List.mem_of_find?_eq_some h
    have hp' := List.find?_some h
    have := List.length_eraseP_add_one (p := fun q => q.1 == k) hmem hp'
    simp only [List.length_cons, List.length_nil]
    omega

theorem cacheInsert_length_le (c : Cache) (k : String) (v : Value)
    (hmax : 1 ≤ c.max_items) (hlen : c.cache.length ≤ c.max_items) :
    (cacheInsert c k v).cache.length ≤ c.max_items := by
  unfold cacheInsert
  by_cases hk : hasKey c.cache k = true
  · simp only [hk, if_true]
    rw [List.length_append]
    simp only [hasKey, List.any_eq_true] at hk
    obtain ⟨x, hx, hxk⟩ := hk
    have := List.length_eraseP_add_one (p := fun q => q.1 == k) hx hxk
    simp only [List.length_cons, List.length_nil]
    omega
  · have hk' : hasKey c.cache k = false := by simpa using hk
    simp only [hk', Bool.false_eq_true, if_false]
    by_cases hfull : c.max_items ≤ c.cache.length
    · simp only [hfull, if_true]
      rw [List.length_append, List.length_tail]
      simp only [List.length_cons, List.length_nil]
      omega
    · simp only [hfull, if_false]
      rw [List.length_append]
      simp only [List.length_cons, List.length_nil]
      omega

theorem cacheStep_max (c : Cache) (op : CacheOp) :
    (cacheStep c op).max_items = c.max_items := by
  cases op with
  | get k =>
    show ((cacheGet c k).2).max_items = c.max_items
    unfold cacheGet
    cases c.cache.find? (fun p => p.1 == k) <;> rfl
  | ins k v =>
    show (cacheInsert c k v).max_items = c.max_items
    unfold cacheInsert
    split <;> [rfl; (split <;> rfl)]

theorem cacheStep_length_le (c : Cache) (op : CacheOp)
    (hmax : 1 ≤ c.max_items) (hlen : c.cache.length ≤ c.max_items) :
    (cacheStep c op).cache.length ≤ c.max_items := by
  cases op with
  | get k => rw [show (cacheStep c (CacheOp.get k)) = (cacheGet c k).2 from rfl,
      cacheGet_length]; exact hlen
  | ins k v => exact cacheInsert_length_le c k v hmax hlen

/-! Instrumented cache: the same code with a ghost clock recording, per
entry, the step at which it was last accessed (inserted or hit by a
`get`).  `projC` erases the ghost field and recovers the line-2586
cache verbatim. -/

structure CacheT where
  cache : List (String × Value × ℕ)
  max_items : ℕ
  clock : ℕ
deriving DecidableEq, Repr

def projC (c : CacheT) : Cache :=
  { cache := c.cache.map (fun p => (p.1, p.2.1)), max_items := c.max_items }

def cacheGetT (c : CacheT) (k : String) : Option Value × CacheT :=
  match c.cache.find? (fun p => p.1 == k) with
  | some p =>
      (some p.2.1,
       { c with
         cache := (c.cache.eraseP (fun q => q.1 == k)) ++ [(k, p.2.1, c.clock)],
         clock := c.clock + 1 })
  | Option.none => (Option.none, { c with clock := c.clock + 1 })

def cacheInsertT (c : CacheT) (k : String) (v : Value) : CacheT :=
  if c.cache.any (fun q => q.1 == k) then
    { c with
      cache := (c.cache.eraseP (fun q => q.1 == k)) ++ [(k, v, c.clock)],
      clock := c.clock + 1 }
  else if c.max_items ≤ c.cache.length then
    { c with cache := c.cache.tail ++ [(k, v, c.clock)], clock := c.clock + 1 }
  else
    { c with cache := c.cache ++ [(k, v, c.clock)], clock := c.clock + 1 }

/-- Well-formedness of the ghost clock: last-access stamps strictly
increase from the oldest entry to the newest and sit below the clock. -/
def CacheTWF (c : CacheT) : Prop :=
  c.cache.Pairwise (fun a b => a.2.2 < b.2.2) ∧ ∀ e ∈ c.cache, e.2.2 < c.clock

theorem cacheTWF_get (c : CacheT) (k : String) (h : CacheTWF c) :
    CacheTWF (cacheGetT c k).2 := by
  obtain ⟨hpw, hclk⟩ := h
  unfold cacheGetT
  cases hf : c.cache.find? (fun p => p.1 == k) with
  | none => exact ⟨hpw, fun e he => Nat.lt_succ_of_lt (hclk e he)⟩
  | some p =>
    refine ⟨?_, ?_⟩
    · rw [List.pairwise_append]
      refine ⟨hpw.sublist (List.eraseP_sublist _), List.pairwise_singleton _ _, ?_⟩
      intro a ha b hb
      rw [List.mem_singleton] at hb
      subst hb
      exact hclk a ((List.eraseP_sublist _).subset ha)
    · intro e he
      rw [List.mem_append] at he
      rcases he with he | he
      · exact Nat.lt_succ_of_lt (hclk e ((List.eraseP_sublist _).subset he))
      · rw [List.mem_singleton] at he
        subst he
        exact Nat.lt_succ_self _

theorem cacheTWF_insert (c : CacheT) (k : String) (v : Value) (h : CacheTWF c) :
    CacheTWF (cacheInsertT c k v) := by
  obtain ⟨hpw, hclk⟩ := h
  unfold cacheInsertT
  have happend : ∀ (l : List (String × Value × ℕ)),
      l.Pairwise (fun a b => a.2.2 < b.2.2) → (∀ e ∈ l, e.2.2 < c.clock) →
      (l ++ [(k, v, c.clock)]).Pairwise (fun a b => a.2.2 < b.2.2) ∧
        ∀ e ∈ l ++ [(k, v, c.clock)], e.2.2 < c.clock + 1 := by
    intro l hl hcl
    refine ⟨?_, ?_⟩
    · rw [List.pairwise_append]
      refine ⟨hl, List.pairwise_singleton _ _, ?_⟩
      intro a ha b hb
      rw [List.mem_singleton] at hb
      subst hb
      exact hcl a ha
    · intro e he
      rw [List.mem_append] at he
      rcases he with he | he
      · exact Nat.lt_succ_of_lt (hcl e he)
      · rw [List.mem_singleton] at he
        subst he
        exact Nat.lt_succ_self _
  split
  · exact happend _ (hpw.sublist (List.eraseP_sublist _))
      (fun e he => hclk e ((List.eraseP_sublist _).subset he))
  · split
    · exact happend _ (hpw.sublist (List.tail_sublist _))
        (fun e he => hclk e ((List.tail_sublist _).subset he))
    · exact happend _ hpw hclk

theorem projC_cacheInsertT (c : CacheT) (k : String) (v : Value) :
    projC (cacheInsertT c k v) = cacheInsert (projC c) k v := by
  have hany : ((c.cache.map (fun p => (p.1, p.2.1))).any (fun p => p.1 == k)) =
      c.cache.any (fun q => q.1 == k) := by
    induction c.cache with
    | nil => rfl
    | cons a tl ih => simp only [List.map_cons, List.any_cons, ih]
  by_cases ha : c.cache.any (fun q => q.1 == k) = true
  · unfold cacheInsertT cacheInsert projC hasKey
    simp only [hany, ha, if_true, List.map_append, List.map_cons, List.map_nil,
      List.eraseP_map]
    rfl
  · have ha' : c.cache.any (fun q => q.1 == k) = false := Bool.eq_false_iff.mpr ha
    unfold cacheInsertT cacheInsert projC hasKey
    simp only [hany, ha', Bool.false_eq_true, if_false, List.length_map]
    by_cases hfull : c.max_items ≤ c.cache.length
    · simp only [hfull, if_true, List.map_append, List.map_cons, List.map_nil,
        List.map_tail]
    · simp only [hfull, if_false, List.map_append, List.map_cons, List.map_nil]

theorem projC_cacheGetT (c : CacheT) (k : String) :
    projC (cacheGetT c k).2 = (cacheGet (projC c) k).2 ∧
      (cacheGetT c k).1 = (cacheGet (projC c) k).1 := by
  unfold cacheGetT cacheGet projC
  rw [List.find?_map]
  cases hf : c.cache.find? ((fun p => p.1 == k) ∘ fun p => (p.1, p.2.1)) with
  | none =>
    have : c.cache.find? (fun q => q.1 == k) = Option.none := hf
    simp [this]
  | some p =>
    have : c.cache.find? (fun q => q.1 == k) = some p := hf
    simp only [this, Option.map_some]
    constructor
    · show Cache.mk _ _ = Cache.mk _ _
      rw [Cache.mk.injEq]
      refine ⟨?_, rfl⟩
      rw [List.map_append, List.eraseP_map]
      rfl
    · rfl

/-- The instrumented eviction: on a fresh key at capacity the code drops
exactly the head entry, whose last-access stamp is strictly below that of
every surviving entry — the least-recently-accessed one. -/
theorem cacheInsertT_evicts_lru (c : CacheT) (k : String) (v : Value)
    (hwf : CacheTWF c) (hk : c.cache.any (fun q => q.1 == k) = false)
    (hmax : 1 ≤ c.max_items) (hfull : c.max_items ≤ c.cache.length) :
    ∃ e rest, c.cache = e :: rest ∧
      (cacheInsertT c k v).cache = rest ++ [(k, v, c.clock)] ∧
      ∀ q ∈ rest, e.2.2 < q.2.2 := by
  obtain ⟨hpw, -⟩ := hwf
  have hpos : 0 < c.cache.length := lt_of_lt_of_le hmax hfull
  cases hc : c.cache with
  | nil => rw [hc] at hpos; cases hpos
  | cons e rest =>
    refine ⟨e, rest, rfl, ?_, ?_⟩
    · unfold cacheInsertT
      rw [if_neg (by simp [hk]), if_pos hfull, hc]
      rfl
    · rw [hc] at hpw
      exact fun q hq => (List.pairwise_cons.mp hpw).1 q hq

/-- `ImageCache.get` at lines 1449-1450 (second variant): a bare
`self.cache.get(key)` — the cache is not reordered. -/
def cacheGetV2 (c : Cache) (k : String) : Option Value := dictGet c.cache k

/-- `ImageCache.insert` at lines 1452-1458 (second variant): pop the
oldest entry whenever the cache is at capacity (without checking whether
the key is already resident), then item-assign. -/
def cacheInsertV2 (c : Cache) (k : String) (v : Value) : Cache :=
  let base := if c.max_items ≤ c.cache.length then c.cache.tail else c.cache
  { c with cache := dictSet base k v }

/-- A second-variant cache at its capacity of 2, `"a"` oldest. -/
def c3full : Cache :=
  { cache := [("a", Value.int 1), ("b", Value.int 2)], max_items := 2 }

/-- C3, counterexample against the line-1443 cache: re-inserting the
resident key `"b"` at capacity shrinks the cache from 2 entries to 1
(the claim demands unchanged size), and a `get` hit on `"a"` performs no
promotion, so the following insert evicts `"a"` — the most recently
accessed entry — instead of the least recently accessed `"b"`. -/
theorem C3_counterexample :
    (cacheInsertV2 c3full "b" (Value.int 9)).cache.length ≠
        c3full.cache.length ∧
    cacheGetV2 c3full "a" = some (Value.int 1) ∧
    (cacheInsertV2 c3full "c" (Value.int 3)).cache =
      [("b", Value.int 2), ("c", Value.int 3)] := by decide

/-- C3, amended: the line-141/2586 caches satisfy the full LRU contract —
(i) no operation sequence pushes the size past `max_items`; (ii)
re-inserting a resident key keeps the size and moves the entry to the
most-recent end; (iii) a `get` hit returns the stored value and moves the
entry to the most-recent end; (iv) an insert of a fresh key at capacity
evicts exactly the entry with the minimal last-access stamp; (v) the
instrumented cache of (iv) projects onto the line-2586 code.  The
line-1443 cache is FIFO and fails the contract (see the
counterexample). -/
theorem C3_amended_lru_contract :
    (∀ (ops : List CacheOp) (c : Cache), 1 ≤ c.max_items →
        c.cache.length ≤ c.max_items →
        (cacheRun c ops).cache.length ≤ c.max_items) ∧
    (∀ (c : Cache) (k : String) (v : Value), hasKey c.cache k = true →
        (cacheInsert c k v).cache.length = c.cache.length ∧
        (cacheInsert c k v).cache.getLast? = some (k, v)) ∧
    (∀ (c : Cache) (k : String) (pr : String × Value),
        c.cache.find? (fun p => p.1 == k) = some pr →
        (cacheGet c k).1 = some pr.2 ∧
        (cacheGet c k).2.cache.length = c.cache.length ∧
        (cacheGet c k).2.cache.getLast? = some (k, pr.2)) ∧
    (∀ (c : CacheT) (k : String) (v : Value), CacheTWF c →
        c.cache.any (fun q => q.1 == k) = false →
        1 ≤ c.max_items → c.max_items ≤ c.cache.length →
        ∃ e rest, c.cache = e :: rest ∧
          (cacheInsertT c k v).cache = rest ++ [(k, v, c.clock)] ∧
          ∀ q ∈ rest, e.2.2 < q.2.2) ∧
    (∀ (c : CacheT) (k : String) (v : Value),
        projC (cacheInsertT c k v) = cacheInsert (projC c) k v ∧
        projC (cacheGetT c k).2 = (cacheGet (projC c) k).2 ∧
        (cacheGetT c k).1 = (cacheGet (projC c) k).1) := by
  refine ⟨?_, ?_, ?_, cacheInsertT_evicts_lru, ?_⟩
  · intro ops
    induction ops with
    | nil => intro c _ h; exact h
    | cons op rest ih =>
      intro c hmax hlen
      have h1 := cacheStep_length_le c op hmax hlen
      have h2 := cacheStep_max c op
      have h3 := ih (cacheStep c op) (by rw [h2]; exact hmax) (by rw [h2]; exact h1)
      show ((op :: rest).foldl cacheStep c).cache.length ≤ c.max_items
      rw [List.foldl_cons]
      calc (rest.foldl cacheStep (cacheStep c op)).cache.length
          ≤ (cacheStep c op).max_items := h3
        _ = c.max_items := h2
  · intro c k v hk
    unfold cacheInsert
    rw [if_pos hk]
    simp only [hasKey, List.any_eq_true] at hk
    obtain ⟨x, hx, hxk⟩ := hk
    have := List.length_eraseP_add_one (p := fun q => q.1 == k) hx hxk
    constructor
    · rw [List.length_append]
      simp only [List.length_cons, List.length_nil]
      omega
    · exact List.getLast?_concat _
  · intro c k pr hf
    unfold cacheGet
    rw [hf]
    refine ⟨rfl, ?_, ?_⟩
    · rw [List.length_append]
      have hmem := List.mem_of_find?_eq_some hf
      have hp' := List.find?_some hf
      have := List.length_eraseP_add_one (p := fun q => q.1 == k) hmem hp'
      simp only [List.length_cons, List.length_nil]
      omega
    · exact List.getLast?_concat _
  · intro c k v
    exact ⟨projC_cacheInsertT c k v, (projC_cacheGetT c k).1,
      (projC_cacheGetT c k).2⟩

/-- An instrumented cache at capacity 2; `"a"` was last accessed at step
0, `"b"` at step 1. -/
def c3t : CacheT :=
  { cache := [("a", Value.int 1, 0), ("b", Value.int 2, 1)],
    max_items := 2, clock := 2 }

theorem C3_amended_lru_contract_witness :
    ((cacheRun emptyCache
        [CacheOp.ins "a" (Value.int 1), CacheOp.ins "b" (Value.int 2),
         CacheOp.get "a", CacheOp.ins "c" (Value.int 3)]).cache.length ≤
      emptyCache.max_items) ∧
    (∃ e rest, c3t.cache = e :: rest ∧
      (cacheInsertT c3t "c" (Value.int 3)).cache =
        rest ++ [("c", Value.int 3, c3t.clock)] ∧
      ∀ q ∈ rest, e.2.2 < q.2.2) :=
  ⟨C3_amended_lru_contract.1 _ emptyCache (by decide) (by decide),
   C3_amended_lru_contract.2.2.2.1 c3t "c" (Value.int 3)
     ⟨by decide, by decide⟩ (by decide) (by decide) (by decide)⟩

/-! ## Mutual exclusion in the line-141 cache (C10)

Line 154/161/172: `QMutexLocker(self.lock)` stands alone as an expression
statement, so CPython destroys the temporary locker — releasing the
mutex — as soon as the statement finishes, before any dictionary access
runs.  Lines 2595/2603/2613 use `with QMutexLocker(self.lock):`, keeping
the mutex held across the block.  Each method body is abstracted to its
sequence of lock transitions and shared-dict accesses. -/

inductive LockStep where
  | acquire
  | release
  | touch
deriving DecidableEq, Repr

/-- Every shared-dict access happens while the lock depth is positive. -/
def touchesLocked : List LockStep → ℕ → Bool
  | [], _ => true
  | .acquire :: r, d => touchesLocked r (d + 1)
  | .release :: r, d => touchesLocked r (d - 1)
  | .touch :: r, d => decide (0 < d) && touchesLocked r d

/-- `get` at lines 152-159: lock acquired and immediately released by the
discarded temporary, then the membership test, `pop` and re-insert touch
the dict unlocked. -/
def getTraceLine152 : List LockStep :=
  [.acquire, .release, .touch, .touch, .touch]

/-- `insert` at lines 161-170: same discarded temporary, then membership
test / eviction / assignment touch the dict unlocked. -/
def insertTraceLine161 : List LockStep :=
  [.acquire, .release, .touch, .touch, .touch]

/-- `get` at lines 2594-2600: the `with` block holds the mutex across
every dict access. -/
def getTraceLine2594 : List LockStep :=
  [.acquire, .touch, .touch, .touch, .release]

/-- `insert` at lines 2602-2610. -/
def insertTraceLine2602 : List LockStep :=
  [.acquire, .touch, .touch, .touch, .release]

/-- C10: in the line-141 `ImageCache` — whose docstring announces a
"Thread-Safe True LRU Cache" — neither `get` nor `insert` touches the
shared dict while the mutex is held, because `QMutexLocker(self.lock)`
is discarded immediately; the line-2586 variant holds the mutex across
every access via `with`. -/
theorem C10_mutex_dropped_line141 :
    touchesLocked getTraceLine152 0 = false ∧
    touchesLocked insertTraceLine161 0 = false ∧
    touchesLocked getTraceLine2594 0 = true ∧
    touchesLocked insertTraceLine2602 0 = true := by decide

/-! ## Decision journal: `apply_decision` / `perform_undo` / `perform_redo`

The second variant's `GalleryView` keeps `undo_stack` / `redo_stack` as
Python lists of `(idxs, snapshots)` pairs, appended and popped at the
end.  Its class body defines `apply_decision` twice: the journaled
definition at lines 2357-2377 and a journal-free definition at
lines 2464-2493 which, coming later in the class body, is the one Python
actually binds. -/

/-- One journal entry: the affected indices paired with their record
snapshots. -/
abbrev JEntry := List ℕ × List Dict

structure JState where
  image_data : List Dict
  undo_stack : List JEntry
  redo_stack : List JEntry
deriving DecidableEq, Repr

/-- The per-record mutation shared by both `apply_decision` definitions
(lines 2366-2370 and 2471-2480): `if status: target['status'] = status`,
`if rating is not None: ...`, `if color: ...`, then
`target['is_manual'] = True`. -/
def decideRecord (d : Dict) (status rating color : Value) : Dict :=
  let d1 := if truthy status then dictSet d "status" status else d
  let d2 := if rating ≠ Value.none then dictSet d1 "rating" rating else d1
  let d3 := if truthy color then dictSet d2 "color" color else d2
  dictSet d3 "is_manual" (Value.bool true)

/-- `GalleryView.apply_decision` at lines 2357-2377 (non-Titanium
branch): snapshot the targeted records, append the batch to
`undo_stack`, clear `redo_stack`, then mutate each target. -/
def applyDecisionV2a (s : JState) (targets : List ℕ)
    (status rating color : Value) : JState :=
  let prev := targets.map (fun i => s.image_data.getD i [])
  { image_data :=
      targets.foldl
        (fun data i =>
          data.set i (decideRecord (data.getD i []) status rating color))
        s.image_data,
    undo_stack := s.undo_stack ++ [(targets, prev)],
    redo_stack := [] }

/-- `GalleryView.apply_decision` at lines 2464-2493 — the later, binding
definition: guard clause `if not self.image_data or self.current_index >=
len(...): return`, then mutate the single current record.  No snapshot is
pushed and the redo stack is left alone. -/
def applyDecisionV2b (s : JState) (current_index : ℕ)
    (status rating color : Value) : JState :=
  if s.image_data.length = 0 ∨ s.image_data.length ≤ current_index then s
  else
    { s with
      image_data :=
        s.image_data.set current_index
          (decideRecord (s.image_data.getD current_index [])
            status rating color) }

/-- `for i, idx in enumerate(idxs): self.image_data[idx] = vals[i]` —
the restore loop of `perform_undo` / `perform_redo`
(lines 2411-2412 / 2422-2423). -/
def restoreAt (data : List Dict) (idxs : List ℕ) (vals : List Dict) :
    List Dict :=
  (idxs.zip vals).foldl (fun dt p => dt.set p.1 p.2) data

/-- `GalleryView.perform_undo`, fallback branch (lines 2406-2414): pop
the last undo batch, capture the current state of its records onto
`redo_stack`, restore the snapshots. -/
def performUndo (s : JState) : JState :=
  match s.undo_stack.getLast? with
  | Option.none => s
  | some e =>
    { image_data := restoreAt s.image_data e.1 e.2,
      undo_stack := s.undo_stack.dropLast,
      redo_stack :=
        s.redo_stack ++ [(e.1, e.1.map (fun i => s.image_data.getD i []))] }

/-- `GalleryView.perform_redo` (lines 2416-2425): the mirror image. -/
def performRedo (s : JState) : JState :=
  match s.redo_stack.getLast? with
  | Option.none => s
  | some e =>
    { image_data := restoreAt s.image_data e.1 e.2,
      undo_stack :=
        s.undo_stack ++ [(e.1, e.1.map (fun i => s.image_data.getD i []))],
      redo_stack := s.redo_stack.dropLast }

/-- States reached from an initial record set (empty journals) by a
sequence of journaled curator decisions whose targets are in range —
`targets` is `self.multi_selection` or `{self.current_index}`, both
index sets over `image_data`. -/
inductive DecReached : JState → Prop where
  | init (data : List Dict) :
      DecReached { image_data := data, undo_stack := [], redo_stack := [] }
  | step (s : JState) (targets : List ℕ) (st r c : Value)
      (hs : DecReached s)
      (h : ∀ i ∈ targets, i < s.image_data.length) :
      DecReached (applyDecisionV2a s targets st r c)

theorem restoreAt_length (data : List Dict) (idxs : List ℕ)
    (vals : List Dict) : (restoreAt data idxs vals).length = data.length := by
  unfold restoreAt
  induction (idxs.zip vals) generalizing data with
  | nil => rfl
  | cons p tl ih => rw [List.foldl_cons, ih, List.length_set]

theorem foldl_decide_length (st r c : Value) (targets : List ℕ)
    (data : List Dict) :
    (targets.foldl
      (fun dt i => dt.set i (decideRecord (dt.getD i []) st r c))
      data).length = data.length := by
  induction targets generalizing data with
  | nil => rfl
  | cons i tl ih => rw [List.foldl_cons, ih, List.length_set]

theorem applyDecisionV2a_length (s : JState) (targets : List ℕ)
    (st r c : Value) :
    (applyDecisionV2a s targets st r c).image_data.length =
      s.image_data.length :=
  foldl_decide_length st r c targets s.image_data

theorem restoreAt_getElem?_not_mem (data : List Dict) (idxs : List ℕ)
    (vals : List Dict) (j : ℕ) (hj : j ∉ idxs) :
    (restoreAt data idxs vals)[j]? = data[j]? := by
  unfold restoreAt
  induction idxs generalizing data vals with
  | nil => rfl
  | cons i tl ih =>
    cases vals with
    | nil => rfl
    | cons v vtl =>
      rw [List.zip_cons_cons, List.foldl_cons]
      have hji : j ≠ i := fun h => hj (h ▸ List.mem_cons_self i tl)
      have hjtl : j ∉ tl := fun h => hj (List.mem_cons_of_mem i h)
      rw [ih (data.set i v) vtl hjtl]
      exact List.getElem?_set_ne (fun h => hji h.symm)

theorem restoreAt_getElem?_mem (data base : List Dict) (idxs : List ℕ)
    (j : ℕ) (hj : j ∈ idxs) (hlen : j < data.length) :
    (restoreAt data idxs (idxs.map (fun i => base.getD i [])))[j]? =
      some (base.getD j []) := by
  induction idxs generalizing data with
  | nil => cases hj
  | cons i tl ih =>
    show (restoreAt (data.set i (base.getD i [])) tl
        (tl.map (fun i => base.getD i [])))[j]? = _
    by_cases hjtl : j ∈ tl
    · exact ih (data.set i (base.getD i [])) hjtl
        (by rw [List.length_set]; exact hlen)
    · have hji : j = i := by
        rcases List.mem_cons.mp hj with h | h
        · exact h
        · exact absurd h hjtl
      subst hji
      rw [restoreAt_getElem?_not_mem _ _ _ _ hjtl]
      rw [List.getElem?_set_self (by exact hlen)]

/-- Undoing a batch and then restoring the captured pre-undo values
brings the record list back, provided the batch indices are in range. -/
theorem restoreAt_round_trip (data : List Dict) (idxs : List ℕ)
    (vals : List Dict) (h : ∀ i ∈ idxs, i < data.length) :
    restoreAt (restoreAt data idxs vals) idxs
      (idxs.map (fun i => data.getD i [])) = data := by
  apply List.ext_getElem?
  intro j
  by_cases hj : j ∈ idxs
  · rw [restoreAt_getElem?_mem _ data idxs j hj
      (by rw [restoreAt_length]; exact h j hj)]
    have hjlen := h j hj
    have hg : data.getD j [] = data[j] := by
      unfold List.getD
      rw [List.get?_eq_getElem?, List.getElem?_eq_getElem hjlen]
      rfl
    rw [hg, List.getElem?_eq_getElem hjlen]
  · rw [restoreAt_getElem?_not_mem _ _ _ _ hj,
      restoreAt_getElem?_not_mem _ _ _ _ hj]

theorem decReached_inv (s : JState) (h : DecReached s) :
    s.redo_stack = [] ∧
      ∀ e ∈ s.undo_stack, ∀ i ∈ e.1, i < s.image_data.length := by
  induction h with
  | init data => exact ⟨rfl, by intro e he; cases he⟩
  | step s targets st r c hs hrange ih =>
    refine ⟨rfl, ?_⟩
    intro e he i hi
    rw [applyDecisionV2a_length]
    have he' : e ∈ s.undo_stack ++
        [(targets, targets.map (fun i => s.image_data.getD i []))] := he
    rw [List.mem_append] at he'
    rcases he' with he | he
    · exact ih.2 e he i hi
    · rw [List.mem_singleton] at he
      subst he
      exact hrange i hi

theorem mem_of_getLast?_eq {α : Type} :
    ∀ (l : List α) (a : α), l.getLast? = some a → a ∈ l
  | [], _, h => by cases h
  | [x], a, h => by
    rw [List.getLast?_singleton] at h
    rw [Option.some_inj] at h
    subst h
    exact List.mem_singleton_self x
  | x :: y :: tl, a, h => by
    rw [List.getLast?_cons_cons] at h
    exact List.mem_cons_of_mem x (mem_of_getLast?_eq (y :: tl) a h)

/-- C4: from any state reached by a sequence of journaled curator
decisions, `perform_undo` immediately followed by `perform_redo`
restores the record set exactly (fallback undo/redo-stack branch;
the journaled `apply_decision` is the line-2357 definition). -/
theorem C4_undo_redo_round_trip (s : JState) (h : DecReached s) :
    (performRedo (performUndo s)).image_data = s.image_data := by
  obtain ⟨hredo, hinv⟩ := decReached_inv s h
  cases hlast : s.undo_stack.getLast? with
  | none =>
    unfold performUndo
    rw [hlast]
    unfold performRedo
    rw [hredo]
    rfl
  | some e =>
    have hmem : e ∈ s.undo_stack := mem_of_getLast?_eq _ _ hlast
    have hrange : ∀ i ∈ e.1, i < s.image_data.length := hinv e hmem
    unfold performUndo
    rw [hlast]
    unfold performRedo
    simp only [hredo, List.nil_append, List.getLast?_singleton]
    rw [restoreAt_round_trip s.image_data e.1 e.2 hrange]

/-- A fresh one-record state with a single journaled `keep` decision
applied. -/
def c4s : JState :=
  applyDecisionV2a
    { image_data :=
        [[("path", Value.str "a.jpg"), ("status", Value.str "pending"),
          ("rating", Value.int 0), ("color", Value.none),
          ("is_manual", Value.bool false)]],
      undo_stack := [], redo_stack := [] }
    [0] (Value.str "keep") Value.none Value.none

theorem C4_undo_redo_round_trip_witness :
    (performRedo (performUndo c4s)).image_data = c4s.image_data :=
  C4_undo_redo_round_trip c4s
    (DecReached.step _ [0] (Value.str "keep") Value.none Value.none
      (DecReached.init _) (by decide))

/-- The one-record state used to exhibit the shadowed journaling. -/
def c5s : JState :=
  { image_data :=
      [[("path", Value.str "a.jpg"), ("status", Value.str "pending"),
        ("rating", Value.int 0), ("color", Value.none),
        ("is_manual", Value.bool false)]],
    undo_stack := [], redo_stack := [] }

/-- C5: the binding `apply_decision` (line 2464, the second definition in
the class body) mutates the record — status becomes `keep`, `is_manual`
becomes true — yet pushes no snapshot onto the undo journal, while the
shadowed line-2357 definition would have pushed the prior state and
cleared the redo stack. -/
theorem C5_effective_apply_decision_skips_journal :
    (applyDecisionV2b c5s 0 (Value.str "keep") Value.none Value.none).undo_stack
        = [] ∧
    dictGet ((applyDecisionV2b c5s 0 (Value.str "keep") Value.none
        Value.none).image_data.headI) "status" = some (Value.str "keep") ∧
    dictGet ((applyDecisionV2b c5s 0 (Value.str "keep") Value.none
        Value.none).image_data.headI) "is_manual" = some (Value.bool true) ∧
    (applyDecisionV2a c5s [0] (Value.str "keep") Value.none
        Value.none).undo_stack =
      [([0],
        [[("path", Value.str "a.jpg"), ("status", Value.str "pending"),
          ("rating", Value.int 0), ("color", Value.none),
          ("is_manual", Value.bool false)]])] ∧
    (applyDecisionV2a c5s [0] (Value.str "keep") Value.none
        Value.none).redo_stack = [] :=
  ⟨by decide, by decide, by decide, by decide, by decide⟩

/-! ## GalleryView: scan-batch merge and reset

First variant: `on_batch_found` (lines 1102-1132) with a `path_registry`
duplicate check, `nuclear_reset` (lines 1084-1091) and `load_images`
(lines 1093-1100).  Second variant: `on_batch_found` (lines 2221-2243,
no duplicate check), `clear_all` (lines 2176-2187) and `load_images`
(lines 2189-2219).

File-modification times (Python floats, seconds) are represented by an
oracle `mtime : String → Option Int` in an arbitrary integer time unit
(`Option.none` models the `except: pass` on an unreadable file); the
burst-tag comparison they feed only affects the `tags`/`burst_group`
fields of a fresh record, not the merge behaviour under proof. -/

structure GV1 where
  image_data : List Dict
  path_registry : List String
  visible_indices : List ℕ
  current_index : ℕ
  multi_selection : List ℕ
  undo_stack : List JEntry
  redo_stack : List JEntry
  scanners : List Bool
  current_folder : Option String
deriving DecidableEq, Repr

/-- The record literal built at lines 1121-1124. -/
def mkRecordV1 (p : String) (isBurst : Bool) : Dict :=
  [("path", Value.str p), ("status", Value.str "pending"),
   ("score", Value.int 0),
   ("tags", Value.str (if isBurst then "#NEW #BURST" else "#NEW")),
   ("face_ids", Value.strList []), ("burst_group", Value.bool isBurst)]

/-- `last_time = 0; if self.image_data: last_time =
getmtime(image_data[-1]['path'])` with the exception handler keeping 0
(lines 1105-1108). -/
def lastTimeInit (mtime : String → Option Int) (data : List Dict) : Int :=
  match data.getLast? with
  | Option.none => 0
  | some d =>
    match dictGet d "path" with
    | some (Value.str p) => (mtime p).getD 0
    | _ => 0

/-- The per-path loop at lines 1110-1124: skip registered paths; register
a fresh path, compute the burst flag from consecutive modification
times, and append the new record. -/
def obfLoopV1 (mtime : String → Option Int) (thresh : Int) :
    List String → List String → List Dict → Int → List String × List Dict
  | [], reg, acc, _ => (reg, acc)
  | p :: rest, reg, acc, last =>
    if p ∈ reg then obfLoopV1 mtime thresh rest reg acc last
    else
      match mtime p with
      | Option.none =>
          obfLoopV1 mtime thresh rest (reg ++ [p])
            (acc ++ [mkRecordV1 p false]) last
      | some t =>
          obfLoopV1 mtime thresh rest (reg ++ [p])
            (acc ++ [mkRecordV1 p (decide (|t - last| < thresh))]) t

/-- `GalleryView.on_batch_found`, lines 1102-1132. -/
def onBatchFoundV1 (mtime : String → Option Int) (thresh : Int)
    (s : GV1) (batch : List String) : GV1 :=
  let r := obfLoopV1 mtime thresh batch s.path_registry []
    (lastTimeInit mtime s.image_data)
  { s with
    path_registry := r.1,
    image_data := s.image_data ++ r.2,
    visible_indices := s.visible_indices ++
      (List.range r.2.length).map (s.image_data.length + ·) }

/-- `GalleryView.nuclear_reset`, lines 1084-1091: clears the records,
the path registry, the visible indices and the current index — and
nothing else. -/
def nuclearReset (s : GV1) : GV1 :=
  { s with
    image_data := [], path_registry := [], visible_indices := [],
    current_index := 0 }

/-- `GalleryView.load_images`, lines 1093-1100: guard on an empty path,
`nuclear_reset`, then construct and start a fresh `FolderScanner`
without stopping a previous one. -/
def loadImagesV1 (s : GV1) (path : String) : GV1 :=
  if path.isEmpty then s
  else
    let s1 := nuclearReset s
    { s1 with current_folder := some path, scanners := s1.scanners ++ [true] }

structure GV2 where
  image_data : List Dict
  visible_indices : List ℕ
  rendered_count : ℕ
  current_index : ℕ
  loaded_thumbnails_count : ℕ
  multi_selection : List ℕ
  undo_stack : List JEntry
  redo_stack : List JEntry
  ai_workers : List Bool
  ai_attached : Bool
  scanners : List Bool
  filter_state : String
  current_folder : Option String
deriving DecidableEq, Repr

/-- The record literal built at lines 2224-2236. -/
def mkRecordV2 (p : String) : Dict :=
  [("path", Value.str p), ("status", Value.str "pending"),
   ("rating", Value.int 0), ("color", Value.none),
   ("vip_level", Value.str "None"), ("confidence", Value.str "high"),
   ("is_manual", Value.bool false), ("is_burst", Value.bool false),
   ("is_best_of_burst", Value.bool false), ("ai_tags", Value.strList []),
   ("ai_pick", Value.bool false)]

/-- `GalleryView.on_batch_found`, lines 2221-2243: build one record per
delivered path — no duplicate check — merge any saved fields from the
database (`saved` oracle models `db.fetch_folder_data`), extend the
record list and the visible indices. -/
def onBatchFoundV2 (saved : String → Option Dict) (s : GV2)
    (batch : List String) : GV2 :=
  let new_items := batch.map (fun p =>
    match saved p with
    | some u => dictUpdate (mkRecordV2 p) u
    | Option.none => mkRecordV2 p)
  { s with
    image_data := s.image_data ++ new_items,
    visible_indices := s.visible_indices ++
      (if s.filter_state = "all" then
        (List.range new_items.length).map (s.image_data.length + ·)
       else []) }

/-- `GalleryView.clear_all`, lines 2176-2187. -/
def clearAll (s : GV2) : GV2 :=
  { s with
    image_data := [], visible_indices := [], rendered_count := 0,
    current_index := 0, loaded_thumbnails_count := 0 }

/-- `self.ai_worker.stop()`: clear the running flag of the most recently
created analysis worker. -/
def stopLast (l : List Bool) : List Bool :=
  match l.getLast? with
  | Option.none => l
  | some _ => l.dropLast ++ [false]

/-- `GalleryView.load_images`, lines 2189-2219: guard on a missing or
non-directory path, stop and drop the attached analysis worker,
`clear_all`, reset the filter, then start a fresh scanner without
stopping a previous one. -/
def loadImagesV2 (isdir : String → Bool) (s : GV2) (folder : String) :
    GV2 :=
  if folder.isEmpty || !isdir folder then s
  else
    let s1 :=
      if s.ai_attached then
        { s with ai_workers := stopLast s.ai_workers, ai_attached := false }
      else s
    let s2 := clearAll s1
    { s2 with
      filter_state := "all", current_folder := some folder,
      scanners := s2.scanners ++ [true] }

theorem obfLoopV1_nil (mtime : String → Option Int) (thresh : Int)
    (reg : List String) (acc : List Dict) (last : Int) :
    obfLoopV1 mtime thresh [] reg acc last = (reg, acc) := rfl

theorem obfLoopV1_cons_mem (mtime : String → Option Int) (thresh : Int)
    (p : String) (rest reg : List String) (acc : List Dict) (last : Int)
    (hp : p ∈ reg) :
    obfLoopV1 mtime thresh (p :: rest) reg acc last =
      obfLoopV1 mtime thresh rest reg acc last := by
  simp [obfLoopV1, hp]

theorem obfLoopV1_cons_new (mtime : String → Option Int) (thresh : Int)
    (p : String) (rest reg : List String) (acc : List Dict) (last : Int)
    (hp : p ∉ reg) :
    obfLoopV1 mtime thresh (p :: rest) reg acc last =
      match mtime p with
      | Option.none => obfLoopV1 mtime thresh rest (reg ++ [p])
          (acc ++ [mkRecordV1 p false]) last
      | some t => obfLoopV1 mtime thresh rest (reg ++ [p])
          (acc ++ [mkRecordV1 p (decide (|t - last| < thresh))]) t := by
  simp [obfLoopV1, hp]

theorem obfLoopV1_skips_registered (mtime : String → Option Int)
    (thresh : Int) :
    ∀ (batch reg : List String) (acc : List Dict) (last : Int),
      (∀ p ∈ batch, p ∈ reg) →
      obfLoopV1 mtime thresh batch reg acc last = (reg, acc) := by
  intro batch
  induction batch with
  | nil => intro reg acc last _; exact obfLoopV1_nil ..
  | cons p rest ih =>
    intro reg acc last h
    have hp : p ∈ reg := h p (List.mem_cons_self p rest)
    rw [obfLoopV1_cons_mem mtime thresh p rest reg acc last hp]
    exact ih reg acc last (fun q hq => h q (List.mem_cons_of_mem p hq))

theorem obfLoopV1_spec (mtime : String → Option Int) (thresh : Int) :
    ∀ (batch reg : List String) (acc : List Dict) (last : Int),
      ∃ R F, obfLoopV1 mtime thresh batch reg acc last = (R, acc ++ F) ∧
        (∀ p ∈ reg, p ∈ R) ∧
        (∀ d ∈ F, ∃ p, dictGet d "path" = some (Value.str p) ∧ p ∉ reg) := by
  intro batch
  induction batch with
  | nil =>
    intro reg acc last
    exact ⟨reg, [], by rw [List.append_nil]; exact obfLoopV1_nil mtime thresh reg acc last,
      fun p hp => hp, by intro d hd; cases hd⟩
  | cons p rest ih =>
    intro reg acc last
    by_cases hp : p ∈ reg
    · obtain ⟨R, F, heq, hsub, hF⟩ := ih reg acc last
      refine ⟨R, F, ?_, hsub, hF⟩
      rw [obfLoopV1_cons_mem mtime thresh p rest reg acc last hp]
      exact heq
    · have hstep : ∀ (b : Bool) (last' : Int),
          (∃ R F, obfLoopV1 mtime thresh rest (reg ++ [p])
              (acc ++ [mkRecordV1 p b]) last' =
                (R, (acc ++ [mkRecordV1 p b]) ++ F) ∧
            (∀ q ∈ reg ++ [p], q ∈ R) ∧
            (∀ d ∈ F, ∃ q, dictGet d "path" = some (Value.str q) ∧
              q ∉ reg ++ [p])) →
          ∃ R F, obfLoopV1 mtime thresh rest (reg ++ [p])
              (acc ++ [mkRecordV1 p b]) last' = (R, acc ++ F) ∧
            (∀ q ∈ reg, q ∈ R) ∧
            (∀ d ∈ F, ∃ q, dictGet d "path" = some (Value.str q) ∧
              q ∉ reg) := by
        intro b last' ⟨R, F, heq, hsub, hF⟩
        refine ⟨R, mkRecordV1 p b :: F, ?_, ?_, ?_⟩
        · rw [heq, List.append_assoc]
          rfl
        · exact fun q hq => hsub q (List.mem_append_left _ hq)
        · intro d hd
          rcases List.mem_cons.mp hd with hd | hd
          · subst hd
            exact ⟨p, rfl, hp⟩
          · obtain ⟨q, hq1, hq2⟩ := hF d hd
            exact ⟨q, hq1, fun hmem => hq2 (List.mem_append_left _ hmem)⟩
      rw [obfLoopV1_cons_new mtime thresh p rest reg acc last hp]
      cases hmt : mtime p with
      | none => exact hstep false last (ih (reg ++ [p]) _ last)
      | some t => exact hstep _ t (ih (reg ++ [p]) _ t)

/-- C6, amended: the line-1102 merge skips every path already in the
registry — a batch of only-registered paths leaves the record list and
the registry untouched — and in general existing records survive any
merge unmodified, every appended record carrying a previously
unregistered path.  The line-2221 merge performs no duplicate check (see
the counterexample). -/
theorem C6_amended_duplicate_merge :
    (∀ (mtime : String → Option Int) (thresh : Int) (s : GV1)
        (batch : List String),
        (∀ p ∈ batch, p ∈ s.path_registry) →
        (onBatchFoundV1 mtime thresh s batch).image_data = s.image_data ∧
        (onBatchFoundV1 mtime thresh s batch).path_registry =
          s.path_registry) ∧
    (∀ (mtime : String → Option Int) (thresh : Int) (s : GV1)
        (batch : List String),
        ∃ F, (onBatchFoundV1 mtime thresh s batch).image_data =
            s.image_data ++ F ∧
          ∀ d ∈ F, ∃ p, dictGet d "path" = some (Value.str p) ∧
            p ∉ s.path_registry) := by
  constructor
  · intro mtime thresh s batch h
    have := obfLoopV1_skips_registered mtime thresh batch s.path_registry []
      (lastTimeInit mtime s.image_data) h
    constructor
    · show s.image_data ++
        (obfLoopV1 mtime thresh batch s.path_registry []
          (lastTimeInit mtime s.image_data)).2 = s.image_data
      rw [this]
      exact List.append_nil _
    · show (obfLoopV1 mtime thresh batch s.path_registry []
        (lastTimeInit mtime s.image_data)).1 = s.path_registry
      rw [this]
  · intro mtime thresh s batch
    obtain ⟨R, F, heq, -, hF⟩ := obfLoopV1_spec mtime thresh batch
      s.path_registry [] (lastTimeInit mtime s.image_data)
    refine ⟨F, ?_, hF⟩
    show s.image_data ++
      (obfLoopV1 mtime thresh batch s.path_registry []
        (lastTimeInit mtime s.image_data)).2 = s.image_data ++ F
    rw [heq]
    simp

/-- A one-record first-variant state whose registry holds the record's
path. -/
def c6s1 : GV1 :=
  { image_data := [mkRecordV1 "a.jpg" false],
    path_registry := ["a.jpg"], visible_indices := [0], current_index := 0,
    multi_selection := [], undo_stack := [], redo_stack := [],
    scanners := [], current_folder := some "f" }

theorem C6_amended_duplicate_merge_witness :
    (∀ p ∈ ["a.jpg"], p ∈ c6s1.path_registry) ∧
    ((onBatchFoundV1 (fun _ => Option.none) 1 c6s1 ["a.jpg"]).image_data =
        c6s1.image_data ∧
      (onBatchFoundV1 (fun _ => Option.none) 1 c6s1 ["a.jpg"]).path_registry =
        c6s1.path_registry) :=
  ⟨by decide,
   C6_amended_duplicate_merge.1 (fun _ => Option.none) 1 c6s1 ["a.jpg"]
     (by decide)⟩

/-- A one-record second-variant state holding `"a.jpg"`. -/
def c6s2 : GV2 :=
  { image_data := [mkRecordV2 "a.jpg"], visible_indices := [0],
    rendered_count := 1, current_index := 0, loaded_thumbnails_count := 0,
    multi_selection := [], undo_stack := [], redo_stack := [],
    ai_workers := [], ai_attached := false, scanners := [true],
    filter_state := "all", current_folder := some "f" }

/-- C6, counterexample: delivering the already-present path `"a.jpg"` to
the line-2221 merge appends a second record for the same path — the
record count grows from 1 to 2 and path uniqueness is lost. -/
theorem C6_counterexample :
    (onBatchFoundV2 (fun _ => Option.none) c6s2 ["a.jpg"]).image_data.length
        = 2 ∧
    (onBatchFoundV2 (fun _ => Option.none) c6s2 ["a.jpg"]).image_data =
      [mkRecordV2 "a.jpg", mkRecordV2 "a.jpg"] := by decide

/-- A state mid-session: one record, a populated journal, a multi
selection and a scanner still running. -/
def c8s : GV1 :=
  { image_data := [mkRecordV1 "a.jpg" false], path_registry := ["a.jpg"],
    visible_indices := [0], current_index := 0, multi_selection := [0],
    undo_stack := [([0], [mkRecordV1 "a.jpg" false])],
    redo_stack := [([0], [mkRecordV1 "a.jpg" false])],
    scanners := [true], current_folder := some "f" }

/-- C8, counterexample: `nuclear_reset` leaves both journal stacks
populated, and `load_images` on a new folder starts a second scanner
while the first one's running flag is still set — the in-flight scan is
ignored, not cancelled. -/
theorem C8_counterexample :
    (nuclearReset c8s).undo_stack ≠ [] ∧
    (nuclearReset c8s).redo_stack ≠ [] ∧
    (loadImagesV1 c8s "g").scanners = [true, true] ∧
    (loadImagesV1 c8s "g").undo_stack ≠ [] :=
  ⟨by decide, by decide, by decide, by decide⟩

/-- C8, amended: `nuclear_reset` (line 1084) clears the record set, the
path registry, the visible indices and the current index but leaves the
multi-selection, both journal stacks and every worker untouched;
`load_images` (line 1093) resets and starts a fresh scanner without
stopping the previous one; `clear_all` (line 2176) likewise preserves
the journal stacks and workers; `load_images` (line 2189) stops the
attached analysis worker but keeps the journal stacks and leaves a
previous scanner running. -/
theorem C8_amended_reset_behaviour :
    (∀ s : GV1,
        (nuclearReset s).image_data = [] ∧
        (nuclearReset s).path_registry = [] ∧
        (nuclearReset s).visible_indices = [] ∧
        (nuclearReset s).current_index = 0 ∧
        (nuclearReset s).multi_selection = s.multi_selection ∧
        (nuclearReset s).undo_stack = s.undo_stack ∧
        (nuclearReset s).redo_stack = s.redo_stack ∧
        (nuclearReset s).scanners = s.scanners) ∧
    (∀ (s : GV1) (path : String), path.isEmpty = false →
        (loadImagesV1 s path).image_data = [] ∧
        (loadImagesV1 s path).undo_stack = s.undo_stack ∧
        (loadImagesV1 s path).redo_stack = s.redo_stack ∧
        (loadImagesV1 s path).scanners = s.scanners ++ [true]) ∧
    (∀ s : GV2,
        (clearAll s).image_data = [] ∧
        (clearAll s).visible_indices = [] ∧
        (clearAll s).undo_stack = s.undo_stack ∧
        (clearAll s).redo_stack = s.redo_stack ∧
        (clearAll s).scanners = s.scanners ∧
        (clearAll s).ai_workers = s.ai_workers) ∧
    (∀ (isdir : String → Bool) (s : GV2) (folder : String),
        folder.isEmpty = false → isdir folder = true →
        s.ai_attached = true →
        (loadImagesV2 isdir s folder).image_data = [] ∧
        (loadImagesV2 isdir s folder).ai_workers = stopLast s.ai_workers ∧
        (loadImagesV2 isdir s folder).ai_attached = false ∧
        (loadImagesV2 isdir s folder).undo_stack = s.undo_stack ∧
        (loadImagesV2 isdir s folder).redo_stack = s.redo_stack ∧
        (loadImagesV2 isdir s folder).scanners = s.scanners ++ [true]) := by
  refine ⟨?_, ?_, ?_, ?_⟩
  · intro s
    exact ⟨rfl, rfl, rfl, rfl, rfl, rfl, rfl, rfl⟩
  · intro s path h
    unfold loadImagesV1
    simp only [h, Bool.false_eq_true, if_false]
    exact ⟨rfl, rfl, rfl, rfl⟩
  · intro s
    exact ⟨rfl, rfl, rfl, rfl, rfl, rfl⟩
  · intro isdir s folder h1 h2 h3
    unfold loadImagesV2
    simp only [h1, h2, h3, Bool.not_true, Bool.or_false, Bool.false_eq_true,
      if_false, if_true]
    exact ⟨rfl, rfl, rfl, rfl, rfl, rfl⟩

theorem C8_amended_reset_behaviour_witness :
    ("g".isEmpty = false) ∧
    ((loadImagesV1 c8s "g").image_data = [] ∧
      (loadImagesV1 c8s "g").undo_stack = c8s.undo_stack ∧
      (loadImagesV1 c8s "g").redo_stack = c8s.redo_stack ∧
      (loadImagesV1 c8s "g").scanners = c8s.scanners ++ [true]) :=
  ⟨by decide, C8_amended_reset_behaviour.2.1 c8s "g" (by decide)⟩

/-! ## FolderScanner.run (lines 221-246 and 2652-2667)

The scanner walks `os.scandir` entries, keeps regular files whose
lowercased `os.path.splitext` extension is in the valid set, emits
`batch_found` every 50 collected paths, emits a final partial batch, and
emits `finished` exactly once at the end.  The cancellation flag is
never set in the 120-file scenario, so `if not self._is_running: break`
never fires and is not modelled.  The bounded `msleep` pacing has no
observable effect on the event sequence. -/

structure FsEntry where
  name : String
  path : String
  isFile : Bool
deriving DecidableEq, Repr

/-- The `valid_exts` set of lines 223 / 2654. -/
def validExts : List String :=
  [".jpg", ".jpeg", ".png", ".bmp", ".tiff", ".webp", ".raw", ".arw",
   ".cr2", ".nef"]

/-- `os.path.splitext(name)[1].lower()`: the extension from the last dot
of the name, leading dots not counting as separators. -/
def extOf (name : String) : String :=
  let cs := name.toList
  let lead := (cs.takeWhile (fun c => c == '.')).length
  let dotIdxs := (List.range cs.length).filter
    (fun i => decide (lead ≤ i) && (cs.getD i ' ' == '.'))
  match dotIdxs.getLast? with
  | some i => String.mk ((cs.drop i).map Char.toLower)
  | Option.none => ""

/-- `entry.is_file() and splitext(entry.name)[1].lower() in valid_exts`
(lines 232-234 / 2659). -/
def isImageEntry (e : FsEntry) : Bool :=
  e.isFile && validExts.contains (extOf e.name)

inductive ScanEvent where
  | batch (paths : List String)
  | finished
deriving DecidableEq, Repr

/-- The enumeration loop plus the final-batch and `finished` emissions
(lines 229-246), accumulating the current partial batch. -/
def scanGo : List FsEntry → List String → List ScanEvent
  | [], acc =>
    (if acc.isEmpty then [] else [ScanEvent.batch acc]) ++
      [ScanEvent.finished]
  | e :: rest, acc =>
    if isImageEntry e then
      let b := acc ++ [e.path]
      if 50 ≤ b.length then ScanEvent.batch b :: scanGo rest []
      else scanGo rest b
    else scanGo rest acc

def folderScannerRun (entries : List FsEntry) : List ScanEvent :=
  scanGo entries []

theorem scanGo_fill (l : List FsEntry) (acc : List String)
    (hval : ∀ e ∈ l, isImageEntry e = true) (hacc : acc.length < 50)
    (hfill : 50 ≤ acc.length + l.length) :
    scanGo l acc =
      ScanEvent.batch (acc ++ (l.map FsEntry.path).take (50 - acc.length)) ::
        scanGo (l.drop (50 - acc.length)) [] := by
  induction l generalizing acc with
  | nil => simp at hfill; omega
  | cons e rest ih =>
    have he : isImageEntry e = true := hval e (List.mem_cons_self e rest)
    show (if isImageEntry e then _ else _) = _
    rw [if_pos he]
    by_cases hfull : 50 ≤ (acc ++ [e.path]).length
    · rw [if_pos hfull]
      rw [List.length_append, List.length_singleton] at hfull
      have hacc49 : acc.length = 49 := by omega
      have h1 : 50 - acc.length = 1 := by omega
      rw [h1]
      simp only [List.map_cons, List.take_succ_cons, List.take_zero,
        List.drop_succ_cons, List.drop_zero]
    · rw [if_neg hfull]
      rw [List.length_append, List.length_singleton] at hfull
      have hlt : (acc ++ [e.path]).length < 50 := by
        rw [List.length_append, List.length_singleton]; omega
      have hge : 50 ≤ (acc ++ [e.path]).length + rest.length := by
        rw [List.length_append, List.length_singleton]
        simp only [List.length_cons] at hfill
        omega
      rw [ih (acc ++ [e.path])
        (fun x hx => hval x (List.mem_cons_of_mem e hx)) hlt hge]
      have h2 : 50 - (acc ++ [e.path]).length = 50 - acc.length - 1 := by
        rw [List.length_append, List.length_singleton]
        omega
      have h3 : ∃ m, 50 - acc.length = m + 1 := ⟨50 - acc.length - 1, by omega⟩
      obtain ⟨m, hm⟩ := h3
      rw [h2, hm]
      simp only [Nat.add_sub_cancel, List.map_cons, List.take_succ_cons,
        List.drop_succ_cons, List.append_assoc, List.singleton_append]

theorem scanGo_drain (l : List FsEntry) (acc : List String)
    (hval : ∀ e ∈ l, isImageEntry e = true)
    (hsmall : acc.length + l.length < 50) :
    scanGo l acc =
      (if (acc ++ l.map FsEntry.path).isEmpty then []
       else [ScanEvent.batch (acc ++ l.map FsEntry.path)]) ++
        [ScanEvent.finished] := by
  induction l generalizing acc with
  | nil => simp [scanGo]
  | cons e rest ih =>
    have he : isImageEntry e = true := hval e (List.mem_cons_self e rest)
    show (if isImageEntry e then _ else _) = _
    rw [if_pos he]
    have hnotfull : ¬50 ≤ (acc ++ [e.path]).length := by
      rw [List.length_append, List.length_singleton]
      simp only [List.length_cons] at hsmall
      omega
    rw [if_neg hnotfull]
    have hsmall' : (acc ++ [e.path]).length + rest.length < 50 := by
      rw [List.length_append, List.length_singleton]
      simp only [List.length_cons] at hsmall
      omega
    rw [ih (acc ++ [e.path])
      (fun x hx => hval x (List.mem_cons_of_mem e hx)) hsmall']
    simp only [List.map_cons, List.append_assoc, List.singleton_append]

/-- C7: a scan over 120 image files emits exactly three batches — the
first 50 paths, the next 50, the final 20, in enumeration order — and
then `finished`, which occurs exactly once, after the last batch. -/
theorem C7_scan_batches (entries : List FsEntry)
    (hval : ∀ e ∈ entries, isImageEntry e = true)
    (hlen : entries.length = 120) :
    folderScannerRun entries =
      [ScanEvent.batch ((entries.map FsEntry.path).take 50),
       ScanEvent.batch (((entries.map FsEntry.path).drop 50).take 50),
       ScanEvent.batch ((entries.map FsEntry.path).drop 100),
       ScanEvent.finished] ∧
    (folderScannerRun entries).count ScanEvent.finished = 1 ∧
    (folderScannerRun entries).getLast? = some ScanEvent.finished := by
  have hval50 : ∀ e ∈ entries.drop 50, isImageEntry e = true :=
    fun e he => hval e ((List.drop_sublist 50 entries).subset he)
  have hval100 : ∀ e ∈ entries.drop 100, isImageEntry e = true :=
    fun e he => hval e ((List.drop_sublist 100 entries).subset he)
  have hmain : folderScannerRun entries =
      [ScanEvent.batch ((entries.map FsEntry.path).take 50),
       ScanEvent.batch (((entries.map FsEntry.path).drop 50).take 50),
       ScanEvent.batch ((entries.map FsEntry.path).drop 100),
       ScanEvent.finished] := by
    unfold folderScannerRun
    rw [scanGo_fill entries [] hval (by simp) (by omega)]
    simp only [List.nil_append, List.length_nil, Nat.sub_zero]
    rw [scanGo_fill (entries.drop 50) [] hval50 (by simp)
      (by rw [List.length_drop, hlen]; omega)]
    simp only [List.nil_append, List.length_nil, Nat.sub_zero,
      List.drop_drop]
    rw [scanGo_drain ((entries.drop 100)) [] (by simpa using hval100)
      (by rw [List.length_nil, List.length_drop, hlen]; omega)]
    have hne : (([] : List String) ++
        ((entries.drop 100).map FsEntry.path)).isEmpty = false := by
      have hlen20 : ((entries.drop 100).map FsEntry.path).length = 20 := by
        rw [List.length_map, List.length_drop, hlen]
      rw [List.nil_append]
      cases hm : (entries.drop 100).map FsEntry.path with
      | nil => rw [hm] at hlen20; simp at hlen20
      | cons x xs => rfl
    rw [hne]
    simp only [List.nil_append, Bool.false_eq_true, if_false,
      List.map_drop, List.map_take, List.cons_append]
  refine ⟨hmain, ?_, ?_⟩
  · rw [hmain]
    simp [List.count_cons]
  · rw [hmain]
    rfl

/-- 120 identically named image files. -/
def c7entries : List FsEntry :=
  List.replicate 120 { name := "x.jpg", path := "x.jpg", isFile := true }

theorem C7_scan_batches_witness :
    (∀ e ∈ c7entries, isImageEntry e = true) ∧
    folderScannerRun c7entries =
      [ScanEvent.batch ((c7entries.map FsEntry.path).take 50),
       ScanEvent.batch (((c7entries.map FsEntry.path).drop 50).take 50),
       ScanEvent.batch ((c7entries.map FsEntry.path).drop 100),
       ScanEvent.finished] ∧
    (folderScannerRun c7entries).count ScanEvent.finished = 1 :=
  ⟨by decide,
   (C7_scan_batches c7entries (by decide) (by decide)).1,
   (C7_scan_batches c7entries (by decide) (by decide)).2.1⟩

/-! ## AIWorker.run cancellation (lines 262-289 and 2676-2692)

The worker iterates `for i, path in enumerate(self.paths)`, checks the
cooperative `is_running` flag at the top of each iteration, analyzes the
path (any exception is swallowed into a fallback result), emits
`result_ready(i, analysis)` unconditionally after the item, and emits
`finished_scan` once after the loop.  `stop()` flips the flag one way,
so the flag observed at the top of iteration `i` is modelled by a
monotone oracle `cancelled` whose first true index is `c`.  The rate-
limited `progress_update` emissions carry no result and are omitted. -/

inductive AiEvent where
  | started (i : ℕ)
  | result (i : ℕ)
  | finished
deriving DecidableEq, Repr

/-- The loop body from index `i`: flag check, then the item is started,
analyzed and its result delivered. -/
def aiGo (cancelled : ℕ → Bool) : ℕ → List String → List AiEvent
  | _, [] => [AiEvent.finished]
  | i, _ :: rest =>
    if cancelled i then [AiEvent.finished]
    else AiEvent.started i :: AiEvent.result i :: aiGo cancelled (i + 1) rest

/-- `AIWorker.run`. -/
def aiWorkerRun (cancelled : ℕ → Bool) (paths : List String) :
    List AiEvent :=
  aiGo cancelled 0 paths

theorem aiGo_not_started (cancelled : ℕ → Bool) (c : ℕ)
    (hc : ∀ i, cancelled i = true ↔ c ≤ i) :
    ∀ (paths : List String) (i j : ℕ), c ≤ j →
      AiEvent.started j ∉ aiGo cancelled i paths := by
  intro paths
  induction paths with
  | nil =>
    intro i j _ hmem
    have hmem' : AiEvent.started j ∈ [AiEvent.finished] := hmem
    rw [List.mem_singleton] at hmem'
    cases hmem'
  | cons p rest ih =>
    intro i j hj hmem
    have hmem' : AiEvent.started j ∈
        (if cancelled i then [AiEvent.finished]
         else AiEvent.started i :: AiEvent.result i ::
           aiGo cancelled (i + 1) rest) := hmem
    by_cases hci : cancelled i = true
    · rw [if_pos hci, List.mem_singleton] at hmem'
      cases hmem'
    · rw [if_neg hci] at hmem'
      have hic : i < c := by
        by_contra hnc
        exact hci ((hc i).mpr (by omega))
      rcases List.mem_cons.mp hmem' with h | h
      · have : j = i := by injection h
        omega
      · rcases List.mem_cons.mp h with h | h
        · cases h
        · exact ih (i + 1) j hj h

theorem aiGo_started_delivers (cancelled : ℕ → Bool) :
    ∀ (paths : List String) (i j : ℕ),
      AiEvent.started j ∈ aiGo cancelled i paths →
      AiEvent.result j ∈ aiGo cancelled i paths := by
  intro paths
  induction paths with
  | nil =>
    intro i j hmem
    have hmem' : AiEvent.started j ∈ [AiEvent.finished] := hmem
    rw [List.mem_singleton] at hmem'
    cases hmem'
  | cons p rest ih =>
    intro i j hmem
    have hmem' : AiEvent.started j ∈
        (if cancelled i then [AiEvent.finished]
         else AiEvent.started i :: AiEvent.result i ::
           aiGo cancelled (i + 1) rest) := hmem
    show AiEvent.result j ∈
      (if cancelled i then [AiEvent.finished]
       else AiEvent.started i :: AiEvent.result i ::
         aiGo cancelled (i + 1) rest)
    by_cases hci : cancelled i = true
    · rw [if_pos hci, List.mem_singleton] at hmem'
      cases hmem'
    · rw [if_neg hci] at hmem' ⊢
      rcases List.mem_cons.mp hmem' with h | h
      · have : j = i := by injection h
        subst this
        exact List.mem_cons_of_mem _ (List.mem_cons_self _ _)
      · rcases List.mem_cons.mp h with h | h
        · cases h
        · exact List.mem_cons_of_mem _
            (List.mem_cons_of_mem _ (ih (i + 1) j h))

theorem aiGo_started_below (cancelled : ℕ → Bool) (c : ℕ)
    (hc : ∀ i, cancelled i = true ↔ c ≤ i) :
    ∀ (paths : List String) (i j : ℕ), i ≤ j → j < i + paths.length →
      j < c → AiEvent.started j ∈ aiGo cancelled i paths := by
  intro paths
  induction paths with
  | nil =>
    intro i j h1 h2 _
    simp only [List.length_nil, Nat.add_zero] at h2
    omega
  | cons p rest ih =>
    intro i j h1 h2 h3
    have hci : cancelled i = false := by
      have : ¬c ≤ i := by omega
      cases hcv : cancelled i with
      | false => rfl
      | true => exact absurd ((hc i).mp hcv) this
    show AiEvent.started j ∈
      (if cancelled i then [AiEvent.finished]
       else AiEvent.started i :: AiEvent.result i ::
         aiGo cancelled (i + 1) rest)
    rw [if_neg (fun h => by rw [hci] at h; cases h)]
    by_cases hji : j = i
    · subst hji
      exact List.mem_cons_self _ _
    · have hlt : i + 1 ≤ j := by omega
      have hub : j < (i + 1) + rest.length := by
        simp only [List.length_cons] at h2
        omega
      exact List.mem_cons_of_mem _
        (List.mem_cons_of_mem _ (ih (i + 1) j hlt hub h3))

theorem aiGo_finished_once (cancelled : ℕ → Bool) :
    ∀ (paths : List String) (i : ℕ),
      (aiGo cancelled i paths).count AiEvent.finished = 1 := by
  intro paths
  induction paths with
  | nil => intro i; rfl
  | cons p rest ih =>
    intro i
    show ((if cancelled i then [AiEvent.finished]
      else AiEvent.started i :: AiEvent.result i ::
        aiGo cancelled (i + 1) rest)).count AiEvent.finished = 1
    by_cases hci : cancelled i = true
    · rw [if_pos hci]
      rfl
    · rw [if_neg hci]
      simp only [List.count_cons, ih (i + 1)]
      rfl

/-- C9: with cancellation first observed at loop index `c`, no item with
index at least `c` is ever started; every started item delivers its
result; every item below `c` within the dispatched list is started (so
with `c = 10` and 100 dispatched items, items 0-9 start and deliver and
items 10-99 never start); and `finished_scan` is emitted exactly once. -/
theorem C9_cancellation_contract (cancelled : ℕ → Bool) (c : ℕ)
    (hc : ∀ i, cancelled i = true ↔ c ≤ i) :
    (∀ (paths : List String) (j : ℕ), c ≤ j →
        AiEvent.started j ∉ aiWorkerRun cancelled paths) ∧
    (∀ (paths : List String) (j : ℕ),
        AiEvent.started j ∈ aiWorkerRun cancelled paths →
        AiEvent.result j ∈ aiWorkerRun cancelled paths) ∧
    (∀ (paths : List String) (j : ℕ), j < paths.length → j < c →
        AiEvent.started j ∈ aiWorkerRun cancelled paths) ∧
    (∀ paths : List String,
        (aiWorkerRun cancelled paths).count AiEvent.finished = 1) :=
  ⟨fun paths j hj => aiGo_not_started cancelled c hc paths 0 j hj,
   fun paths j h => aiGo_started_delivers cancelled paths 0 j h,
   fun paths j h1 h2 => aiGo_started_below cancelled c hc paths 0 j
     (Nat.zero_le j) (by simpa using h1) h2,
   fun paths => aiGo_finished_once cancelled paths 0⟩

/-- 100 dispatched paths; the flag first reads false at index 10. -/
def c9paths : List String := List.replicate 100 "p"

theorem C9_cancellation_contract_witness :
    (∀ i, ((fun i => decide (10 ≤ i)) i = true ↔ 10 ≤ i)) ∧
    AiEvent.started 9 ∈ aiWorkerRun (fun i => decide (10 ≤ i)) c9paths ∧
    AiEvent.result 9 ∈ aiWorkerRun (fun i => decide (10 ≤ i)) c9paths ∧
    AiEvent.started 10 ∉ aiWorkerRun (fun i => decide (10 ≤ i)) c9paths ∧
    (aiWorkerRun (fun i => decide (10 ≤ i)) c9paths).count
      AiEvent.finished = 1 := by
  have hc : ∀ i, ((fun i => decide (10 ≤ i)) i = true ↔ 10 ≤ i) := by
    intro i
    simp
  have hstart := (C9_cancellation_contract _ 10 hc).2.2.1 c9paths 9
    (by decide) (by decide)
  exact ⟨hc, hstart,
    (C9_cancellation_contract _ 10 hc).2.1 c9paths 9 hstart,
    (C9_cancellation_contract _ 10 hc).1 c9paths 10 (by decide),
    (C9_cancellation_contract _ 10 hc).2.2.2 c9paths⟩

end DSR
